import Mathlib

/-!
Verification of the numerical core of the NSU computational-math lab 01
(interpolation) repository.  The Go source is embedded shallowly:
floating-point arithmetic is modelled exactly over `ℚ` (the Chebyshev grid,
which needs `cos`, is modelled over `ℝ`), slices become lists, fallible
array accesses become `Option`, and the mutable augmented matrix of the
Gaussian solver becomes explicit functional state.
-/

namespace Lab01

/-- A sample point `(x, y)`, from `type Point struct { X, Y float64 }`. -/
structure Point where
  x : ℚ
  y : ℚ
deriving DecidableEq, Inhabited

/-- `InterpolationData` from the source: the node list plus interval and count. -/
structure InterpolationData where
  points : List Point
  a : ℚ
  b : ℚ
  n : ℕ

/-- `CreateGrid`: uniform grid `x_i = a + i*h`, `h = (b-a)/n`, `i = 0..n`.
The source performs no input validation: it always returns `n+1` points. -/
def createGrid (a b : ℚ) (n : ℕ) (f : ℚ → ℚ) : InterpolationData :=
  let h := (b - a) / (n : ℚ)
  { points := (List.range (n + 1)).map (fun i =>
      let x := a + (i : ℚ) * h
      { x := x, y := f x }),
    a := a, b := b, n := n }

/-- `LagrangeInterpolation`: the nested accumulation loops of the source,
`result += y_i * Π_{j ≠ i} (x - x_j)/(x_i - x_j)`, taken over the point list. -/
def lagrangeInterpolation (pts : List Point) (x : ℚ) : ℚ :=
  (List.range pts.length).foldl (fun result i =>
    result + (pts.getD i default).y *
      (List.range pts.length).foldl (fun li j =>
        if i ≠ j then
          li * ((x - (pts.getD j default).x) / ((pts.getD i default).x - (pts.getD j default).x))
        else li) 1) 0

/-- The `1e-12` pivot tolerance of `SolveLinearSystem`. -/
def tol : ℚ := 1 / 1000000000000

/-- The augmented matrix `[A | b]` built by the copy loops of `SolveLinearSystem`. -/
def augment (n : ℕ) (A : ℕ → ℕ → ℚ) (b : ℕ → ℚ) : ℕ → ℕ → ℚ :=
  fun r c => if c = n then b r else A r c

/-- One elimination of row `k` below pivot `i`: skipped when `|aug[i][i]| < 1e-12`,
otherwise `aug[k][j] -= (aug[k][i]/aug[i][i]) * aug[i][j]` for `j = i..n`. -/
def elimStep (n i k : ℕ) (M : ℕ → ℕ → ℚ) : ℕ → ℕ → ℚ :=
  if |M i i| < tol then M
  else fun r c =>
    if r = k ∧ i ≤ c ∧ c ≤ n then M r c - (M k i / M i i) * M i c else M r c

/-- The inner loop of the forward phase: eliminate all rows `k = i+1..n-1`. -/
def forwardPivot (n i : ℕ) (M : ℕ → ℕ → ℚ) : ℕ → ℕ → ℚ :=
  (List.range' (i + 1) (n - (i + 1))).foldl (fun M' k => elimStep n i k M') M

/-- The forward phase of `SolveLinearSystem`: pivots `i = 0..n-1`. -/
def gaussForward (n : ℕ) (M : ℕ → ℕ → ℚ) : ℕ → ℕ → ℚ :=
  (List.range n).foldl (fun M' i => forwardPivot n i M') M

/-- One back-substitution assignment:
`sol[i] = aug[i][n] - Σ_{j>i} aug[i][j]*sol[j]`, divided by `aug[i][i]`
only when `|aug[i][i]| > 1e-12`. -/
def backSubstStep (n : ℕ) (aug : ℕ → ℕ → ℚ) (i : ℕ) (sol : ℕ → ℚ) : ℕ → ℚ :=
  Function.update sol i
    (if tol < |aug i i| then
      (aug i n - ∑ j ∈ Finset.Ioo i n, aug i j * sol j) / aug i i
    else
      aug i n - ∑ j ∈ Finset.Ioo i n, aug i j * sol j)

/-- The descending back-substitution loop, `i = m-1` down to `0`. -/
def backLoop (n : ℕ) (aug : ℕ → ℕ → ℚ) : ℕ → (ℕ → ℚ) → (ℕ → ℚ)
  | 0, sol => sol
  | m + 1, sol => backLoop n aug m (backSubstStep n aug m sol)

/-- The back-substitution phase, starting from the zero-initialised solution slice. -/
def backSubst (n : ℕ) (aug : ℕ → ℕ → ℚ) : ℕ → ℚ :=
  backLoop n aug n (fun _ => 0)

/-- `SolveLinearSystem`: Gaussian elimination with the tolerance policy. -/
def solveLinearSystem (n : ℕ) (A : ℕ → ℕ → ℚ) (b : ℕ → ℚ) : ℕ → ℚ :=
  backSubst n (gaussForward n (augment n A b))

/-- `Matrix.Set`: point update of a functionally represented dense matrix. -/
def setEntry (M : ℕ → ℕ → ℚ) (r c : ℕ) (v : ℚ) : ℕ → ℕ → ℚ :=
  fun r' c' => if r' = r ∧ c' = c then v else M r' c'

/-- `CubicSpline`: points, second derivatives `γ`, and step widths `h`. -/
structure CubicSpline where
  points : List Point
  secondDerivatives : List ℚ
  h : List ℚ

/-- Step widths `h[i] = x[i+1] - x[i]`, `i = 0..n-2`, from `NewCubicSpline`. -/
def splineH (pts : List Point) : List ℚ :=
  (List.range (pts.length - 1)).map (fun i =>
    (pts.getD (i + 1) default).x - (pts.getD i default).x)

/-- One interior row `i` of the spline system:
`A[i][i-1] = h[i-1]`, `A[i][i] = 2(h[i-1]+h[i])`, `A[i][i+1] = h[i]`,
`B[i] = 6((y[i+1]-y[i])/h[i] - (y[i]-y[i-1])/h[i-1])`. -/
def splineRow (pts : List Point) (p : (ℕ → ℕ → ℚ) × (ℕ → ℚ)) (i : ℕ) :
    (ℕ → ℕ → ℚ) × (ℕ → ℚ) :=
  let h := splineH pts
  let ys := fun k => (pts.getD k default).y
  (setEntry (setEntry (setEntry p.1 i (i - 1) (h.getD (i - 1) 0))
      i i (2 * (h.getD (i - 1) 0 + h.getD i 0)))
      i (i + 1) (h.getD i 0),
   Function.update p.2 i
      (6 * ((ys (i + 1) - ys i) / h.getD i 0 - (ys i - ys (i - 1)) / h.getD (i - 1) 0)))

/-- The linear system of `NewCubicSpline`: interior rows `i = 1..n-2`, then the
natural boundary rows `A[0][0] = 1`, `A[n-1][n-1] = 1`, `B[0] = B[n-1] = 0`. -/
def splineSystem (pts : List Point) : (ℕ → ℕ → ℚ) × (ℕ → ℚ) :=
  let n := pts.length
  let AB := (List.range' 1 (n - 1 - 1)).foldl (splineRow pts) (fun _ _ => 0, fun _ => 0)
  (setEntry (setEntry AB.1 0 0 1) (n - 1) (n - 1) 1,
   Function.update (Function.update AB.2 0 0) (n - 1) 0)

/-- `NewCubicSpline`: build the system, solve for the second derivatives,
store points, `γ` and `h`. -/
def newCubicSpline (data : InterpolationData) : CubicSpline :=
  let points := data.points
  let AB := splineSystem points
  let secondDerivatives := solveLinearSystem points.length AB.1 AB.2
  { points := points,
    secondDerivatives := (List.range points.length).map secondDerivatives,
    h := splineH points }

/-- The linear segment scan of `Evaluate`: first `i < n-1` with
`x_i ≤ x ≤ x_{i+1}`, else `n-1` (the loop's fall-through value). -/
def findSeg (pts : List Point) (x : ℚ) : ℕ :=
  ((List.range (pts.length - 1)).find? (fun i =>
      decide ((pts.getD i default).x ≤ x ∧ x ≤ (pts.getD (i + 1) default).x))).getD
    (pts.length - 1)

/-- Formula (2.61) of the source, the closed-form segment value. -/
def closedEvaluate (xi xi1 yi yi1 hi1 gammai gammai1 x : ℚ) : ℚ :=
  let term1 := yi * (xi1 - x) / hi1
  let term2 := yi1 * (x - xi) / hi1
  let xi1MinusX := xi1 - x
  let xMinusXi := x - xi
  let term3 := gammai * (xi1MinusX * xi1MinusX * xi1MinusX - hi1 * hi1 * xi1MinusX) / (6 * hi1)
  let term4 := gammai1 * (xMinusXi * xMinusXi * xMinusXi - hi1 * hi1 * xMinusXi) / (6 * hi1)
  term1 + term2 + term3 + term4

/-- `CubicSpline.Evaluate`: segment scan, then the slice accesses of the source
in order (`Points[i]`, `Points[i+1]`, `H[i]`, `γ[i]`, `γ[i+1]`); an
out-of-range access is a Go runtime panic, modelled as `none`. -/
def CubicSpline.evaluate (cs : CubicSpline) (x : ℚ) : Option ℚ :=
  let i := findSeg cs.points x
  (cs.points[i]?).bind fun pti =>
  (cs.points[i + 1]?).bind fun pti1 =>
  (cs.h[i]?).bind fun hi1 =>
  (cs.secondDerivatives[i]?).bind fun gammai =>
  (cs.secondDerivatives[i + 1]?).bind fun gammai1 =>
  some (closedEvaluate pti.x pti1.x pti.y pti1.y hi1 gammai gammai1 x)

/-- Per-segment coefficient `a = (γ_{i+1} - γ_i)/(6h)` of the coefficient-array
spline variant. -/
def coefA (gammai gammai1 hi : ℚ) : ℚ := (gammai1 - gammai) / (6 * hi)

/-- Per-segment coefficient `b = γ_i / 2` of the coefficient-array variant. -/
def coefB (gammai : ℚ) : ℚ := gammai / 2

/-- Per-segment coefficient `c = (y_{i+1}-y_i)/h - (2hγ_i + hγ_{i+1})/6`. -/
def coefC (yi yi1 hi gammai gammai1 : ℚ) : ℚ :=
  (yi1 - yi) / hi - (2 * hi * gammai + hi * gammai1) / 6

/-- Per-segment coefficient `d = y_i` of the coefficient-array variant. -/
def coefD (yi : ℚ) : ℚ := yi

/-- The coefficient-array evaluator: `a·Δ³ + b·Δ² + c·Δ + d` with `Δ = x - x_i`. -/
def coeffEvaluate (a b c d dx : ℚ) : ℚ :=
  a * dx * dx * dx + b * dx * dx + c * dx + d

/-- The contribution of one node of the Lagrange sum:
`y · Π_{q ∈ others} (x - q.x)/(p.x - q.x)` (proof device for the
permutation-invariance analysis of `lagrangeInterpolation`). -/
def lterm (x : ℚ) (p : Point) (others : List Point) : ℚ :=
  p.y * (others.map (fun q => (x - q.x) / (p.x - q.x))).prod

/-- The Lagrange sum with an explicit accumulator of already-passed nodes
(proof device for permutation invariance). -/
def lagW (x : ℚ) : List Point → List Point → ℚ
  | _, [] => 0
  | e, p :: t => lterm x p (e ++ t) + lagW x (p :: e) t

/-- A concrete augmented matrix with a below-tolerance pivot at `(0,0)`,
used to witness the solver tolerance policy. -/
def smallPivotAug : ℕ → ℕ → ℚ := fun r c => if r = 0 ∧ c = 0 then 0 else 1

/-- A concrete two-point sample set on `[0,1]`. -/
def twoPointData : InterpolationData :=
  { points := [⟨0, 0⟩, ⟨1, 1⟩], a := 0, b := 1, n := 1 }

/-- A sample point over `ℝ`, for the Chebyshev grid (which needs `cos`). -/
structure RPoint where
  x : ℝ
  y : ℝ

/-- The Chebyshev factor `t_i = cos(π·(2i+1)/(2(n+1)))` of `createChebyshevGrid`. -/
noncomputable def chebT (n i : ℕ) : ℝ :=
  Real.cos (Real.pi * (2 * (i : ℝ) + 1) / (2 * ((n : ℝ) + 1)))

/-- `createChebyshevGrid`: nodes `x_i = (a+b)/2 + (b-a)/2·t_i`, `i = 0..n`,
with `y_i = f(x_i)`; no validation, always `n+1` points. -/
noncomputable def createChebyshevGrid (a b : ℝ) (n : ℕ) (f : ℝ → ℝ) : List RPoint :=
  (List.range (n + 1)).map (fun i =>
    let x := (a + b) / 2 + (b - a) / 2 * chebT n i
    { x := x, y := f x })

/-- A heap of dense `float64` matrices addressed by allocation order: the
frame-effect model for the in-place mutation of `SolveLinearSystem`. -/
structure Heap where
  next : ℕ
  mem : ℕ → ℕ → ℕ → ℚ

/-- `NewMatrix`: allocate a fresh zero matrix at the next free reference. -/
def newMatrixH (hp : Heap) : Heap × ℕ :=
  ({ next := hp.next + 1,
     mem := fun r => if r = hp.next then fun _ _ => 0 else hp.mem r }, hp.next)

/-- `Matrix.Get` through the heap. -/
def getH (hp : Heap) (ref i j : ℕ) : ℚ := hp.mem ref i j

/-- `Matrix.Set` through the heap: mutate one entry of one matrix in place. -/
def setH (hp : Heap) (ref i j : ℕ) (v : ℚ) : Heap :=
  { next := hp.next,
    mem := fun r => if r = ref then
        (fun i' j' => if i' = i ∧ j' = j then v else hp.mem ref i' j')
      else hp.mem r }

/-- One row of the copy loops of `SolveLinearSystem`:
`augmented[i][j] = A[i][j]` for `j < n`, then `augmented[i][n] = b[i]`
(`b` lives at `bRef`, column 0). -/
def copyRow (aRef bRef aug n : ℕ) (hh : Heap) (i : ℕ) : Heap :=
  let hh2 := (List.range n).foldl (fun hh2 j => setH hh2 aug i j (getH hh2 aRef i j)) hh
  setH hh2 aug i n (getH hh2 bRef i 0)

/-- Heap form of one elimination of row `k` below pivot `i`. -/
def elimRowH (aug n i : ℕ) (hh : Heap) (k : ℕ) : Heap :=
  if |getH hh aug i i| < tol then hh
  else
    let factor := getH hh aug k i / getH hh aug i i
    (List.range' i (n + 1 - i)).foldl (fun hh3 j =>
      setH hh3 aug k j (getH hh3 aug k j - factor * getH hh3 aug i j)) hh

/-- Heap form of the elimination pass below pivot `i`. -/
def forwardPivotH (aug n : ℕ) (hh : Heap) (i : ℕ) : Heap :=
  (List.range' (i + 1) (n - (i + 1))).foldl (elimRowH aug n i) hh

/-- `SolveLinearSystem` with its mutation explicit: the caller's matrix `A`
(reference `aRef`) and vector `b` (reference `bRef`) live in the heap; the
augmented matrix is freshly allocated and is the only reference ever written;
the solution slice is fresh and returned by value. -/
def solveLinearSystemH (hp : Heap) (aRef bRef n : ℕ) : Heap × (ℕ → ℚ) :=
  let alloc := newMatrixH hp
  let h1 := alloc.1
  let aug := alloc.2
  let h2 := (List.range n).foldl (copyRow aRef bRef aug n) h1
  let h3 := (List.range n).foldl (forwardPivotH aug n) h2
  (h3, backSubst n (fun r c => getH h3 aug r c))

/-- A concrete two-reference heap for the frame-effect witness. -/
def twoRefHeap : Heap := { next := 2, mem := fun _ _ _ => 5 }

end Lab01

namespace Lab01

/-! ### Segment algebra for the closed-form evaluator -/

/-- At the left node of a segment the closed form collapses to `y_i`. -/
theorem closedEvaluate_left (xi xi1 yi yi1 gammai gammai1 : ℚ) (h : xi1 - xi ≠ 0) :
    closedEvaluate xi xi1 yi yi1 (xi1 - xi) gammai gammai1 xi = yi := by
  unfold closedEvaluate
  field_simp

/-- At the right node of a segment the closed form collapses to `y_{i+1}`. -/
theorem closedEvaluate_right (xi xi1 yi yi1 gammai gammai1 : ℚ) (h : xi1 - xi ≠ 0) :
    closedEvaluate xi xi1 yi yi1 (xi1 - xi) gammai gammai1 xi1 = yi1 := by
  unfold closedEvaluate
  field_simp

/-- C8: on a segment of width `h = x_{i+1} - x_i ≠ 0`, the coefficient-array
evaluator (coefficients `a,b,c,d` derived from the same second derivatives
and step width) and the closed-form `γ`/`h` evaluator compute the same value
in exact arithmetic: the two spline representations are algebraically
equivalent. -/
theorem coeff_closed_equiv (xi xi1 yi yi1 gammai gammai1 x : ℚ) (h : xi1 - xi ≠ 0) :
    coeffEvaluate (coefA gammai gammai1 (xi1 - xi)) (coefB gammai)
      (coefC yi yi1 (xi1 - xi) gammai gammai1) (coefD yi) (x - xi)
      = closedEvaluate xi xi1 yi yi1 (xi1 - xi) gammai gammai1 x := by
  unfold coeffEvaluate coefA coefB coefC coefD closedEvaluate
  field_simp
  ring

/-- Witness for C8 at a concrete segment. -/
theorem coeff_closed_equiv_witness :
    ((1 : ℚ) - 0 ≠ 0) ∧
    coeffEvaluate (coefA 6 0 ((1 : ℚ) - 0)) (coefB 6) (coefC 0 0 ((1 : ℚ) - 0) 6 0) (coefD 0)
        ((1 / 2 : ℚ) - 0)
      = closedEvaluate 0 1 0 0 ((1 : ℚ) - 0) 6 0 (1 / 2) :=
  ⟨by norm_num, coeff_closed_equiv 0 1 0 0 6 0 (1 / 2) (by norm_num)⟩

/-- C6: the source performs no input validation at grid construction.  Called
with a degenerate interval (`a = b = 0`, so all abscissas coincide) and
`n = 2`, `CreateGrid` returns a 3-point grid with duplicate abscissas instead
of failing with any `InvalidInput`-style error (no error path exists in the
code: the return type is always a populated grid). -/
theorem createGrid_no_validation (f : ℚ → ℚ) :
    ((createGrid 0 0 2 f).points.map Point.x = [0, 0, 0]) ∧
    (createGrid 0 0 2 f).points.length = 3 := by
  constructor
  · simp [createGrid, List.range_succ]
  · rfl

end Lab01

namespace Lab01

/-- C4: the `Evaluate` of the primary variant does NOT clamp out-of-range
inputs.  On the spline through `(0,0), (1,1), (2,0)`, evaluation at `x = 3`
(above `x_n`) and at `x = -1` (below `x_0`) leaves the scan index at `n-1 = 2`
and then reads `Points[3]`, which is out of bounds (a Go runtime panic,
modelled as `none`), instead of returning the boundary segment's cubic value. -/
theorem evaluate_out_of_range_panics :
    (newCubicSpline ⟨[⟨0, 0⟩, ⟨1, 1⟩, ⟨2, 0⟩], 0, 2, 2⟩).evaluate 3 = none ∧
    (newCubicSpline ⟨[⟨0, 0⟩, ⟨1, 1⟩, ⟨2, 0⟩], 0, 2, 2⟩).evaluate (-1) = none := by
  constructor <;> rfl

end Lab01

namespace Lab01

/-! ### The Lagrange evaluator as a sum of basis products -/

/-- Accumulating `foldl` is a sum. -/
theorem foldl_add_eq (g : ℕ → ℚ) :
    ∀ (l : List ℕ) (a : ℚ), l.foldl (fun r i => r + g i) a = a + (l.map g).sum := by
  intro l
  induction l with
  | nil => intro a; simp
  | cons head tail ih => intro a; simp [ih, add_assoc]

/-- Guarded multiplying `foldl` is a product of guarded factors. -/
theorem foldl_mul_ite_eq (p : ℕ → Prop) [DecidablePred p] (g : ℕ → ℚ) :
    ∀ (l : List ℕ) (c : ℚ),
      l.foldl (fun r j => if p j then r * g j else r) c
        = c * (l.map (fun j => if p j then g j else 1)).prod := by
  intro l
  induction l with
  | nil => intro c; simp
  | cons head tail ih =>
    intro c
    by_cases hp : p head
    · simp [hp, ih, mul_assoc]
    · simp [hp, ih]

/-- A mapped sum over `List.range` is a `Finset.range` sum. -/
theorem list_range_map_sum (g : ℕ → ℚ) (n : ℕ) :
    ((List.range n).map g).sum = ∑ i ∈ Finset.range n, g i := by
  induction n with
  | zero => simp
  | succ m ih => rw [List.range_succ, Finset.sum_range_succ]; simp [ih]

/-- The double loop of `LagrangeInterpolation` written as
`Σ_i y_i · Π_j (guarded factor)`. -/
theorem lagrangeInterpolation_eq_sum (pts : List Point) (x : ℚ) :
    lagrangeInterpolation pts x = ∑ i ∈ Finset.range pts.length,
      (pts.getD i default).y * ((List.range pts.length).map
        (fun j => if i ≠ j then
            (x - (pts.getD j default).x) / ((pts.getD i default).x - (pts.getD j default).x)
          else 1)).prod := by
  unfold lagrangeInterpolation
  rw [foldl_add_eq, zero_add, list_range_map_sum]
  refine Finset.sum_congr rfl fun i _ => ?_
  rw [foldl_mul_ite_eq, one_mul]

/-- C5: on a sample set with pairwise distinct abscissas, the Lagrange
evaluator at any node `x_k` returns exactly `y_k` (in exact arithmetic):
every basis product is `0` for `i ≠ k` and `1` for `i = k`. -/
theorem lagrange_nodes (pts : List Point)
    (hdist : ∀ i < pts.length, ∀ j < pts.length, i ≠ j →
      (pts.getD i default).x ≠ (pts.getD j default).x)
    (k : ℕ) (hk : k < pts.length) :
    lagrangeInterpolation pts ((pts.getD k default).x) = (pts.getD k default).y := by
  rw [lagrangeInterpolation_eq_sum]
  rw [Finset.sum_eq_single_of_mem k (Finset.mem_range.mpr hk)]
  · have hone : ((List.range pts.length).map
        (fun j => if k ≠ j then
            ((pts.getD k default).x - (pts.getD j default).x)
              / ((pts.getD k default).x - (pts.getD j default).x)
          else 1)).prod = 1 := by
      apply List.prod_eq_one
      intro a ha
      rcases List.mem_map.mp ha with ⟨j, hj, rfl⟩
      by_cases hkj : k ≠ j
      · rw [if_pos hkj]
        exact div_self (sub_ne_zero.mpr (hdist k hk j (List.mem_range.mp hj) hkj))
      · rw [if_neg hkj]
    rw [hone, mul_one]
  · intro i _ hik
    have hzero : ((List.range pts.length).map
        (fun j => if i ≠ j then
            ((pts.getD k default).x - (pts.getD j default).x)
              / ((pts.getD i default).x - (pts.getD j default).x)
          else 1)).prod = 0 := by
      apply List.prod_eq_zero
      refine List.mem_map.mpr ⟨k, List.mem_range.mpr hk, ?_⟩
      rw [if_pos hik, sub_self, zero_div]
    rw [hzero, mul_zero]

/-- Witness for C5 on the two-point sample set `(0,1), (2,3)` at node 0. -/
theorem lagrange_nodes_witness :
    (∀ i < ([⟨0, 1⟩, ⟨2, 3⟩] : List Point).length,
      ∀ j < ([⟨0, 1⟩, ⟨2, 3⟩] : List Point).length, i ≠ j →
        (([⟨0, 1⟩, ⟨2, 3⟩] : List Point).getD i default).x ≠
          (([⟨0, 1⟩, ⟨2, 3⟩] : List Point).getD j default).x) ∧
    0 < ([⟨0, 1⟩, ⟨2, 3⟩] : List Point).length ∧
    lagrangeInterpolation [⟨0, 1⟩, ⟨2, 3⟩] ((([⟨0, 1⟩, ⟨2, 3⟩] : List Point).getD 0 default).x)
      = (([⟨0, 1⟩, ⟨2, 3⟩] : List Point).getD 0 default).y :=
  ⟨by decide, by decide, lagrange_nodes _ (by decide) 0 (by decide)⟩

end Lab01

namespace Lab01

/-! ### Permutation invariance of the Lagrange evaluator -/

/-- `lterm` only depends on the multiset of the other nodes. -/
theorem lterm_congr_perm (x : ℚ) (p : Point) {o o' : List Point} (h : o.Perm o') :
    lterm x p o = lterm x p o' := by
  unfold lterm
  rw [(h.map _).prod_eq]

/-- `lagW` only depends on the multiset of the accumulator. -/
theorem lagW_congr_e (x : ℚ) :
    ∀ (l : List Point) {e e' : List Point}, e.Perm e' → lagW x e l = lagW x e' l := by
  intro l
  induction l with
  | nil => intro e e' _; rfl
  | cons p t ih =>
    intro e e' h
    simp only [lagW]
    rw [lterm_congr_perm x p (h.append_right t), ih (h.cons p)]

/-- `lagW` is invariant under permutation of the remaining nodes. -/
theorem lagW_perm (x : ℚ) {l l' : List Point} (h : l.Perm l') :
    ∀ e, lagW x e l = lagW x e l' := by
  induction h with
  | nil => intro e; rfl
  | cons a h ih =>
    intro e
    simp only [lagW]
    rw [lterm_congr_perm x a (h.append_left e), ih (a :: e)]
  | swap a b t =>
    intro e
    simp only [lagW]
    have h1 : lterm x b (e ++ a :: t) = lterm x b ((a :: e) ++ t) :=
      lterm_congr_perm x b (List.perm_middle : List.Perm (e ++ a :: t) ((a :: e) ++ t))
    have h2 : lterm x a ((b :: e) ++ t) = lterm x a (e ++ b :: t) :=
      (lterm_congr_perm x a (List.perm_middle : List.Perm (e ++ b :: t) ((b :: e) ++ t))).symm
    have h3 : lagW x (a :: b :: e) t = lagW x (b :: a :: e) t :=
      lagW_congr_e x t (List.Perm.swap b a e)
    rw [h1, h2, h3]
    ring
  | trans _ _ ih₁ ih₂ => intro e; rw [ih₁ e, ih₂ e]

/-- A map of `getD` accesses over the full index range is a map over the list. -/
theorem range_map_getD (F : Point → ℚ) :
    ∀ (l : List Point),
      (List.range l.length).map (fun j => F (l.getD j default)) = l.map F := by
  intro l
  induction l with
  | nil => simp
  | cons p t ih =>
    rw [List.length_cons, List.range_succ_eq_map, List.map_cons, List.map_map]
    simp only [Function.comp_def, Nat.succ_eq_add_one, List.getD_cons_zero, List.getD_cons_succ]
    rw [ih, List.map_cons]

/-- The guarded basis product over all indices equals the unguarded product
over the list with position `i` erased. -/
theorem prod_guard_eq_eraseIdx (x : ℚ) :
    ∀ (pts : List Point) (i : ℕ), i < pts.length →
      ((List.range pts.length).map (fun j => if i ≠ j then
          (x - (pts.getD j default).x) / ((pts.getD i default).x - (pts.getD j default).x)
        else 1)).prod
      = ((pts.eraseIdx i).map (fun q =>
          (x - q.x) / ((pts.getD i default).x - q.x))).prod := by
  intro pts
  induction pts with
  | nil => intro i hi; simp at hi
  | cons p t ih =>
    intro i hi
    rw [List.length_cons, List.range_succ_eq_map, List.map_cons, List.prod_cons, List.map_map]
    cases i with
    | zero =>
      rw [if_neg (fun hc => hc rfl), one_mul, List.eraseIdx_cons_zero]
      simp only [Function.comp_def, Nat.succ_eq_add_one, List.getD_cons_zero, List.getD_cons_succ]
      have hfun : (fun j : ℕ => if (0 : ℕ) ≠ j + 1 then
            (x - (t.getD j default).x) / (p.x - (t.getD j default).x) else 1)
          = fun j : ℕ => (x - (t.getD j default).x) / (p.x - (t.getD j default).x) := by
        funext j
        rw [if_pos (by omega)]
      rw [hfun]
      exact congrArg List.prod (range_map_getD (fun q => (x - q.x) / (p.x - q.x)) t)
    | succ i' =>
      have hi' : i' < t.length := by
        rw [List.length_cons] at hi
        omega
      simp only [Function.comp_def, Nat.succ_eq_add_one, List.getD_cons_zero, List.getD_cons_succ]
      rw [if_pos (Nat.succ_ne_zero i'), List.eraseIdx_cons_succ, List.map_cons, List.prod_cons]
      have hfun : (fun j : ℕ => if i' + 1 ≠ j + 1 then
            (x - (t.getD j default).x) / ((t.getD i' default).x - (t.getD j default).x) else 1)
          = fun j : ℕ => if i' ≠ j then
            (x - (t.getD j default).x) / ((t.getD i' default).x - (t.getD j default).x) else 1 := by
        funext j
        by_cases hij : i' = j
        · subst hij; simp
        · rw [if_pos (by omega), if_pos hij]
      rw [hfun, ih i' hi']

/-- The select-one sum of `lterm`s with accumulator `e` computes `lagW`. -/
theorem lagrange_sum_eq_lagW (x : ℚ) :
    ∀ (pts e : List Point),
      (∑ i ∈ Finset.range pts.length, lterm x (pts.getD i default) (e ++ pts.eraseIdx i))
        = lagW x e pts := by
  intro pts
  induction pts with
  | nil => intro e; simp [lagW]
  | cons p t ih =>
    intro e
    rw [List.length_cons, Finset.sum_range_succ']
    simp only [List.getD_cons_succ, List.getD_cons_zero, List.eraseIdx_cons_succ,
      List.eraseIdx_cons_zero]
    have hterm : ∀ i ∈ Finset.range t.length,
        lterm x (t.getD i default) (e ++ p :: t.eraseIdx i)
          = lterm x (t.getD i default) ((p :: e) ++ t.eraseIdx i) := fun i _ =>
      lterm_congr_perm x _
        (List.perm_middle : List.Perm (e ++ p :: t.eraseIdx i) ((p :: e) ++ t.eraseIdx i))
    rw [Finset.sum_congr rfl hterm, ih (p :: e)]
    simp only [lagW]
    rw [add_comm]

/-- `LagrangeInterpolation` equals the accumulator form started empty. -/
theorem lagrangeInterpolation_eq_lagW (pts : List Point) (x : ℚ) :
    lagrangeInterpolation pts x = lagW x [] pts := by
  rw [lagrangeInterpolation_eq_sum, ← lagrange_sum_eq_lagW x pts []]
  refine Finset.sum_congr rfl fun i hi => ?_
  rw [prod_guard_eq_eraseIdx x pts i (Finset.mem_range.mp hi)]
  rfl

/-- C10: in exact arithmetic the value of `LagrangeInterpolation` is invariant
under any permutation of the sample points, so the descending Chebyshev grid
can be consumed without re-sorting. -/
theorem lagrange_perm_invariant (pts pts' : List Point) (x : ℚ) (h : pts.Perm pts') :
    lagrangeInterpolation pts x = lagrangeInterpolation pts' x := by
  rw [lagrangeInterpolation_eq_lagW, lagrangeInterpolation_eq_lagW]
  exact lagW_perm x h []

/-- Witness for C10: swapping the two nodes of a concrete sample set. -/
theorem lagrange_perm_invariant_witness :
    (([⟨0, 1⟩, ⟨2, 3⟩] : List Point).Perm [⟨2, 3⟩, ⟨0, 1⟩]) ∧
    lagrangeInterpolation [⟨0, 1⟩, ⟨2, 3⟩] 5 = lagrangeInterpolation [⟨2, 3⟩, ⟨0, 1⟩] 5 :=
  ⟨List.Perm.swap _ _ _, lagrange_perm_invariant _ _ 5 (List.Perm.swap _ _ _)⟩

end Lab01

namespace Lab01

/-! ### The tolerance policy of the Gaussian solver -/

/-- The back-substitution loop never touches indices at or above its counter. -/
theorem backLoop_ge (n : ℕ) (aug : ℕ → ℕ → ℚ) :
    ∀ (m : ℕ) (sol : ℕ → ℚ) (j : ℕ), m ≤ j → backLoop n aug m sol j = sol j := by
  intro m
  induction m with
  | zero => intro sol j _; rfl
  | succ m ih =>
    intro sol j hj
    show backLoop n aug m (backSubstStep n aug m sol) j = sol j
    rw [ih _ j (by omega)]
    unfold backSubstStep
    rw [Function.update_noteq (by omega)]

/-- Each solved index of the back-substitution loop satisfies the
accumulate-then-conditionally-divide recurrence over the final values. -/
theorem backLoop_lt (n : ℕ) (aug : ℕ → ℕ → ℚ) :
    ∀ (m : ℕ), m ≤ n → ∀ (sol : ℕ → ℚ) (i : ℕ), i < m →
      backLoop n aug m sol i =
        (if tol < |aug i i| then
          (aug i n - ∑ j ∈ Finset.Ioo i n, aug i j * backLoop n aug m sol j) / aug i i
        else
          aug i n - ∑ j ∈ Finset.Ioo i n, aug i j * backLoop n aug m sol j) := by
  intro m
  induction m with
  | zero => intro _ sol i hi; exact absurd hi (by omega)
  | succ m ih =>
    intro hm sol i hi
    by_cases him : i = m
    · subst him
      show backLoop n aug i (backSubstStep n aug i sol) i = _
      rw [backLoop_ge n aug i _ i (le_refl i)]
      unfold backSubstStep
      rw [Function.update_same]
      have hsum : ∑ j ∈ Finset.Ioo i n, aug i j * sol j
          = ∑ j ∈ Finset.Ioo i n, aug i j * backLoop n aug (i + 1) sol j := by
        refine Finset.sum_congr rfl fun j hj => ?_
        rw [backLoop_ge n aug (i + 1) sol j (Finset.mem_Ioo.mp hj).1]
      rw [hsum]
    · have him' : i < m := by omega
      show backLoop n aug m (backSubstStep n aug m sol) i = _
      rw [ih (by omega) _ i him']
      rfl

/-- C3: the solver's tolerance policy.  Whenever the pivot entry satisfies
`|aug[i][i]| < 1e-12`, the entire elimination pass below pivot `i` leaves the
augmented matrix unmodified; and each back-substituted unknown equals the
accumulated value `aug[i][n] - Σ_{j>i} aug[i][j]·sol[j]`, divided by
`aug[i][i]` exactly when `|aug[i][i]| > 1e-12` and left un-normalised
otherwise — no failure is ever raised, the solver is total. -/
theorem solver_tolerance_policy (n : ℕ) (aug : ℕ → ℕ → ℚ) (i : ℕ) (hi : i < n) :
    (|aug i i| < tol → forwardPivot n i aug = aug) ∧
    backSubst n aug i =
      (if tol < |aug i i| then
        (aug i n - ∑ j ∈ Finset.Ioo i n, aug i j * backSubst n aug j) / aug i i
      else
        aug i n - ∑ j ∈ Finset.Ioo i n, aug i j * backSubst n aug j) := by
  constructor
  · intro hlt
    unfold forwardPivot
    generalize List.range' (i + 1) (n - (i + 1)) = l
    induction l with
    | nil => rfl
    | cons k t ihl =>
      rw [List.foldl_cons]
      have hstep : elimStep n i k aug = aug := by
        unfold elimStep
        rw [if_pos hlt]
      rw [hstep]
      exact ihl
  · exact backLoop_lt n aug n (le_refl n) _ i hi

/-- Witness for C3 at the concrete matrix `smallPivotAug` with `n = 2`, `i = 0`. -/
theorem solver_tolerance_policy_witness :
    (0 < 2) ∧
    ((|smallPivotAug 0 0| < tol → forwardPivot 2 0 smallPivotAug = smallPivotAug) ∧
      backSubst 2 smallPivotAug 0 =
        (if tol < |smallPivotAug 0 0| then
          (smallPivotAug 0 2 -
            ∑ j ∈ Finset.Ioo 0 2, smallPivotAug 0 j * backSubst 2 smallPivotAug j)
            / smallPivotAug 0 0
        else
          smallPivotAug 0 2 -
            ∑ j ∈ Finset.Ioo 0 2, smallPivotAug 0 j * backSubst 2 smallPivotAug j)) :=
  ⟨by norm_num, solver_tolerance_policy 2 smallPivotAug 0 (by norm_num)⟩

end Lab01

namespace Lab01

/-! ### Segment location and evaluation at the nodes -/

/-- Adjacent strict increase of abscissas extends to any pair of indices. -/
theorem xD_lt (pts : List Point)
    (hmono : ∀ i < pts.length - 1, (pts.getD i default).x < (pts.getD (i + 1) default).x) :
    ∀ i j, i < j → j < pts.length → (pts.getD i default).x < (pts.getD j default).x := by
  intro i j hij
  induction hij with
  | refl => intro hj; exact hmono i (by omega)
  | step hm ih =>
    intro hj
    exact lt_trans (ih (by omega)) (hmono _ (by omega))

/-- `find?` over `List.range` returns the first index satisfying the predicate. -/
theorem find?_range_eq_some (p : ℕ → Bool) (m j : ℕ) (hj : j < m) (hpj : p j = true)
    (hlt : ∀ i, i < j → p i = false) : (List.range m).find? p = some j := by
  induction m with
  | zero => omega
  | succ m ih =>
    rw [List.range_succ, List.find?_append]
    by_cases hjm : j = m
    · subst hjm
      have hnone : (List.range j).find? p = none := by
        rw [List.find?_eq_none]
        intro a ha
        simp [hlt a (List.mem_range.mp ha)]
      rw [hnone]
      simp [hpj]
    · rw [ih (by omega)]
      rfl

/-- Bounds-checked access agrees with `getD` inside the list. -/
theorem getElem?_eq_some_getD {α : Type} (l : List α) (d : α) (i : ℕ) (h : i < l.length) :
    l[i]? = some (l.getD i d) := by
  rw [List.getElem?_eq_getElem h, List.getD_eq_getElem l d h]

/-- The stored step widths are the abscissa differences. -/
theorem splineH_getD (pts : List Point) (i : ℕ) (h : i < pts.length - 1) :
    (splineH pts).getD i 0 = (pts.getD (i + 1) default).x - (pts.getD i default).x := by
  unfold splineH
  rw [List.getD_eq_getElem _ _ (by simpa using h)]
  simp

/-- `NewCubicSpline` stores the input points unchanged. -/
theorem newCubicSpline_points (data : InterpolationData) :
    (newCubicSpline data).points = data.points := rfl

/-- `NewCubicSpline` stores the step widths of its points. -/
theorem newCubicSpline_h (data : InterpolationData) :
    (newCubicSpline data).h = splineH data.points := rfl

/-- `NewCubicSpline` stores one second derivative per point. -/
theorem newCubicSpline_gamma_length (data : InterpolationData) :
    (newCubicSpline data).secondDerivatives.length = data.points.length := by
  simp [newCubicSpline]

/-- The segment scan at the abscissa of node `k` stops at segment `k - 1`
(`0` for `k = 0`), for strictly increasing abscissas. -/
theorem findSeg_node (pts : List Point)
    (hmono : ∀ i < pts.length - 1, (pts.getD i default).x < (pts.getD (i + 1) default).x)
    (hn : 2 ≤ pts.length) (k : ℕ) (hk : k < pts.length) :
    findSeg pts ((pts.getD k default).x) = k - 1 := by
  unfold findSeg
  rw [find?_range_eq_some _ _ (k - 1) (by omega) ?_ ?_]
  · rfl
  · apply decide_eq_true
    cases k with
    | zero => exact ⟨le_refl _, (hmono 0 (by omega)).le⟩
    | succ k' => exact ⟨(hmono k' (by omega)).le, le_refl _⟩
  · intro i hi
    apply decide_eq_false
    intro hcon
    have hlt := xD_lt pts hmono (i + 1) k (by omega) hk
    exact absurd hcon.2 (not_le.mpr hlt)

/-- Reduction of `Evaluate` once the segment index and all bounds are known. -/
theorem evaluate_of_seg (cs : CubicSpline) (x : ℚ) (i : ℕ)
    (hfind : findSeg cs.points x = i)
    (hp : i + 1 < cs.points.length) (hh : i < cs.h.length)
    (hg : i + 1 < cs.secondDerivatives.length) :
    cs.evaluate x = some (closedEvaluate
      (cs.points.getD i default).x (cs.points.getD (i + 1) default).x
      (cs.points.getD i default).y (cs.points.getD (i + 1) default).y
      (cs.h.getD i 0) (cs.secondDerivatives.getD i 0)
      (cs.secondDerivatives.getD (i + 1) 0) x) := by
  have e1 := getElem?_eq_some_getD cs.points default i (by omega)
  have e2 := getElem?_eq_some_getD cs.points default (i + 1) hp
  have e3 := getElem?_eq_some_getD cs.h 0 i hh
  have e4 := getElem?_eq_some_getD cs.secondDerivatives 0 i (by omega)
  have e5 := getElem?_eq_some_getD cs.secondDerivatives 0 (i + 1) hg
  simp only [CubicSpline.evaluate, hfind, e1, e2, e3, e4, e5, Option.some_bind]

/-- C1: a spline built by `NewCubicSpline` from strictly increasing abscissas
evaluates to exactly `y_k` at every node `x_k` (in exact arithmetic). -/
theorem spline_interpolates_nodes (data : InterpolationData) (k : ℕ)
    (hmono : ∀ i < data.points.length - 1,
      (data.points.getD i default).x < (data.points.getD (i + 1) default).x)
    (hn : 2 ≤ data.points.length) (hk : k < data.points.length) :
    (newCubicSpline data).evaluate ((data.points.getD k default).x)
      = some ((data.points.getD k default).y) := by
  have hlen : (newCubicSpline data).points.length = data.points.length := by
    rw [newCubicSpline_points]
  have hglen := newCubicSpline_gamma_length data
  have hhlen : (newCubicSpline data).h.length = data.points.length - 1 := by
    rw [newCubicSpline_h]; simp [splineH]
  cases k with
  | zero =>
    have h01 : (data.points.getD 0 default).x < (data.points.getD 1 default).x :=
      hmono 0 (by omega)
    have hfind : findSeg data.points ((data.points.getD 0 default).x) = 0 := by
      simpa using findSeg_node data.points hmono hn 0 (by omega)
    rw [evaluate_of_seg (newCubicSpline data) _ 0 hfind (by rw [hlen]; omega)
      (by rw [hhlen]; omega) (by rw [hglen]; omega)]
    simp only [newCubicSpline_points, newCubicSpline_h]
    rw [splineH_getD data.points 0 (by omega)]
    rw [closedEvaluate_left _ _ _ _ _ _ (sub_ne_zero.mpr h01.ne')]
  | succ k' =>
    have hadj : (data.points.getD k' default).x < (data.points.getD (k' + 1) default).x :=
      hmono k' (by omega)
    have hfind : findSeg data.points ((data.points.getD (k' + 1) default).x) = k' := by
      simpa using findSeg_node data.points hmono hn (k' + 1) hk
    rw [evaluate_of_seg (newCubicSpline data) _ k' hfind (by rw [hlen]; omega)
      (by rw [hhlen]; omega) (by rw [hglen]; omega)]
    simp only [newCubicSpline_points, newCubicSpline_h]
    rw [splineH_getD data.points k' (by omega)]
    rw [closedEvaluate_right _ _ _ _ _ _ (sub_ne_zero.mpr hadj.ne')]

/-- Witness for C1 on the two-point data set, node 1. -/
theorem spline_interpolates_nodes_witness :
    (∀ i < twoPointData.points.length - 1,
      (twoPointData.points.getD i default).x < (twoPointData.points.getD (i + 1) default).x) ∧
    2 ≤ twoPointData.points.length ∧ 1 < twoPointData.points.length ∧
    (newCubicSpline twoPointData).evaluate ((twoPointData.points.getD 1 default).x)
      = some ((twoPointData.points.getD 1 default).y) :=
  ⟨by decide, by decide, by decide,
    spline_interpolates_nodes twoPointData 1 (by decide) (by decide) (by decide)⟩

end Lab01

namespace Lab01

/-! ### Natural boundary rows through the solver -/

/-- Pointwise form of one elimination step. -/
theorem elimStep_apply (n i k : ℕ) (M : ℕ → ℕ → ℚ) (r c : ℕ) :
    elimStep n i k M r c = if |M i i| < tol then M r c
      else if r = k ∧ i ≤ c ∧ c ≤ n then M r c - (M k i / M i i) * M i c else M r c := by
  unfold elimStep
  by_cases ht : |M i i| < tol
  · rw [if_pos ht, if_pos ht]
  · rw [if_neg ht, if_neg ht]

/-- An elimination step only modifies its target row. -/
theorem elimStep_ne_row (n i k r c : ℕ) (M : ℕ → ℕ → ℚ) (h : r ≠ k) :
    elimStep n i k M r c = M r c := by
  rw [elimStep_apply]
  by_cases ht : |M i i| < tol
  · rw [if_pos ht]
  · rw [if_neg ht, if_neg (fun hc => h hc.1)]

/-- The elimination pass below pivot `i` leaves rows `r ≤ i` unchanged. -/
theorem forwardPivot_row_le (n i : ℕ) (M : ℕ → ℕ → ℚ) (r c : ℕ) (h : r ≤ i) :
    forwardPivot n i M r c = M r c := by
  unfold forwardPivot
  have key : ∀ (l : List ℕ), (∀ k ∈ l, i < k) → ∀ M' : ℕ → ℕ → ℚ,
      (l.foldl (fun M' k => elimStep n i k M') M') r c = M' r c := by
    intro l
    induction l with
    | nil => intro _ M'; rfl
    | cons a t ih =>
      intro hmem M'
      rw [List.foldl_cons, ih (fun k hk => hmem k (List.mem_cons_of_mem a hk)) _]
      exact elimStep_ne_row n i a r c M'
        (by have := hmem a (List.mem_cons_self a t); omega)
  exact key _ (fun k hk => by have := List.mem_range'_1.mp hk; omega) M

/-- The forward phase never modifies row 0. -/
theorem gaussForward_row0 (n : ℕ) (M : ℕ → ℕ → ℚ) (c : ℕ) :
    gaussForward n M 0 c = M 0 c := by
  unfold gaussForward
  have key : ∀ (l : List ℕ) (M' : ℕ → ℕ → ℚ),
      (l.foldl (fun M' i => forwardPivot n i M') M') 0 c = M' 0 c := by
    intro l
    induction l with
    | nil => intro M'; rfl
    | cons a t ih =>
      intro M'
      rw [List.foldl_cons, ih, forwardPivot_row_le n a M' 0 c (Nat.zero_le a)]
  exact key _ M

/-- An elimination step with pivot above the last row preserves the unit
last row `(0, …, 0, 1, 0)`: the eliminated entry is already zero, so the
subtraction is exactly a no-op. -/
theorem elimStep_lastRow (n i k : ℕ) (M : ℕ → ℕ → ℚ) (hik : i < k) (hkn : k < n)
    (hM : ∀ c ≤ n, M (n - 1) c = if c = n - 1 then 1 else 0) :
    ∀ c ≤ n, elimStep n i k M (n - 1) c = if c = n - 1 then 1 else 0 := by
  intro c hc
  by_cases hk : k = n - 1
  · subst hk
    rw [elimStep_apply]
    by_cases ht : |M i i| < tol
    · rw [if_pos ht]; exact hM c hc
    · rw [if_neg ht]
      have hMi : M (n - 1) i = 0 := by
        rw [hM i (by omega), if_neg (by omega)]
      by_cases hcc : n - 1 = n - 1 ∧ i ≤ c ∧ c ≤ n
      · rw [if_pos hcc, hMi, zero_div, zero_mul, sub_zero]; exact hM c hc
      · rw [if_neg hcc]; exact hM c hc
  · rw [elimStep_ne_row n i k (n - 1) c M (fun he => hk he.symm)]
    exact hM c hc

/-- A full elimination pass preserves the unit last row. -/
theorem forwardPivot_lastRow (n i : ℕ) (M : ℕ → ℕ → ℚ)
    (hM : ∀ c ≤ n, M (n - 1) c = if c = n - 1 then 1 else 0) :
    ∀ c ≤ n, forwardPivot n i M (n - 1) c = if c = n - 1 then 1 else 0 := by
  unfold forwardPivot
  have key : ∀ (l : List ℕ), (∀ k ∈ l, i < k ∧ k < n) → ∀ M' : ℕ → ℕ → ℚ,
      (∀ c ≤ n, M' (n - 1) c = if c = n - 1 then 1 else 0) →
      ∀ c ≤ n, (l.foldl (fun M' k => elimStep n i k M') M') (n - 1) c
        = if c = n - 1 then 1 else 0 := by
    intro l
    induction l with
    | nil => intro _ M' hM' c hc; exact hM' c hc
    | cons a t ih =>
      intro hmem M' hM' c hc
      rw [List.foldl_cons]
      refine ih (fun k hk => hmem k (List.mem_cons_of_mem a hk)) _ ?_ c hc
      exact elimStep_lastRow n i a M' (hmem a (List.mem_cons_self a t)).1
        (hmem a (List.mem_cons_self a t)).2 hM'
  exact key _ (fun k hk => by have := List.mem_range'_1.mp hk; omega) M hM

/-- The whole forward phase preserves the unit last row. -/
theorem gaussForward_lastRow (n : ℕ) (M : ℕ → ℕ → ℚ)
    (hM : ∀ c ≤ n, M (n - 1) c = if c = n - 1 then 1 else 0) :
    ∀ c ≤ n, gaussForward n M (n - 1) c = if c = n - 1 then 1 else 0 := by
  unfold gaussForward
  have key : ∀ (l : List ℕ) (M' : ℕ → ℕ → ℚ),
      (∀ c ≤ n, M' (n - 1) c = if c = n - 1 then 1 else 0) →
      ∀ c ≤ n, (l.foldl (fun M' i => forwardPivot n i M') M') (n - 1) c
        = if c = n - 1 then 1 else 0 := by
    intro l
    induction l with
    | nil => intro M' hM' c hc; exact hM' c hc
    | cons a t ih =>
      intro M' hM' c hc
      rw [List.foldl_cons]
      exact ih _ (forwardPivot_lastRow n a M' hM') c hc
  exact key _ M hM

/-- An interior row assignment leaves other rows of the matrix unchanged. -/
theorem splineRow_fst_ne (pts : List Point) (p : (ℕ → ℕ → ℚ) × (ℕ → ℚ)) (i r c : ℕ)
    (h : r ≠ i) : (splineRow pts p i).1 r c = p.1 r c := by
  simp only [splineRow, setEntry]
  rw [if_neg (fun hc => h hc.1), if_neg (fun hc => h hc.1), if_neg (fun hc => h hc.1)]

/-- The interior fold leaves rows outside the index list unchanged. -/
theorem splineFold_fst_ne (pts : List Point) :
    ∀ (l : List ℕ) (p : (ℕ → ℕ → ℚ) × (ℕ → ℚ)) (r c : ℕ), (∀ i ∈ l, i ≠ r) →
      (l.foldl (splineRow pts) p).1 r c = p.1 r c := by
  intro l
  induction l with
  | nil => intro p r c _; rfl
  | cons a t ih =>
    intro p r c hne
    rw [List.foldl_cons, ih _ r c (fun i hi => hne i (List.mem_cons_of_mem a hi)),
      splineRow_fst_ne pts p a r c (fun he => hne a (List.mem_cons_self a t) he.symm)]

/-- Row 0 of the spline matrix is the natural-boundary unit row. -/
theorem splineSystem_row0 (pts : List Point) (hn : 2 ≤ pts.length) (c : ℕ) :
    (splineSystem pts).1 0 c = if c = 0 then 1 else 0 := by
  simp only [splineSystem, setEntry]
  rw [if_neg (fun hc => by omega)]
  by_cases hc : c = 0
  · rw [if_pos (by simp [hc]), if_pos hc]
  · rw [if_neg (fun hcon => hc hcon.2),
      splineFold_fst_ne pts _ _ 0 c
        (fun i hi => by have := List.mem_range'_1.mp hi; omega),
      if_neg hc]

/-- The last row of the spline matrix is the natural-boundary unit row. -/
theorem splineSystem_rowLast (pts : List Point) (hn : 2 ≤ pts.length) (c : ℕ) :
    (splineSystem pts).1 (pts.length - 1) c = if c = pts.length - 1 then 1 else 0 := by
  simp only [splineSystem, setEntry]
  by_cases hc : c = pts.length - 1
  · rw [if_pos (by simp [hc]), if_pos hc]
  · rw [if_neg (fun hcon => hc hcon.2),
      if_neg (fun hcon => by have := hcon.1; omega),
      splineFold_fst_ne pts _ _ (pts.length - 1) c
        (fun i hi => by have := List.mem_range'_1.mp hi; omega),
      if_neg hc]

/-- The right-hand side vanishes at row 0. -/
theorem splineSystem_B0 (pts : List Point) (hn : 2 ≤ pts.length) :
    (splineSystem pts).2 0 = 0 := by
  simp only [splineSystem]
  rw [Function.update_noteq (by omega), Function.update_same]

/-- The right-hand side vanishes at the last row. -/
theorem splineSystem_BLast (pts : List Point) :
    (splineSystem pts).2 (pts.length - 1) = 0 := by
  simp only [splineSystem]
  rw [Function.update_same]

end Lab01

namespace Lab01

/-- C2: the second-derivative vector that `NewCubicSpline` obtains from
`SolveLinearSystem` satisfies `γ_0 = 0` and `γ_n = 0` exactly: the unit
boundary rows pass through the elimination untouched (their pivoted entries
are already zero, so every subtracted multiple is exactly zero), and
back-substitution divides `0` by the unit pivot. -/
theorem spline_natural_boundary (data : InterpolationData)
    (hmono : ∀ i < data.points.length - 1,
      (data.points.getD i default).x < (data.points.getD (i + 1) default).x)
    (hn : 2 ≤ data.points.length) :
    (newCubicSpline data).secondDerivatives[0]? = some 0 ∧
    (newCubicSpline data).secondDerivatives[data.points.length - 1]? = some 0 := by
  set n := data.points.length with hn_def
  set A := (splineSystem data.points).1 with hA_def
  set B := (splineSystem data.points).2 with hB_def
  set aug := augment n A B with haug
  have hA0 : ∀ c ≤ n, aug 0 c = if c = 0 then 1 else 0 := by
    intro c hc
    rcases eq_or_lt_of_le hc with hceq | hclt
    · subst hceq
      show augment n A B 0 n = _
      unfold augment
      rw [if_pos rfl, if_neg (by omega)]
      exact splineSystem_B0 data.points hn
    · show augment n A B 0 c = _
      unfold augment
      rw [if_neg (by omega)]
      exact splineSystem_row0 data.points hn c
  have hALast : ∀ c ≤ n, aug (n - 1) c = if c = n - 1 then 1 else 0 := by
    intro c hc
    rcases eq_or_lt_of_le hc with hceq | hclt
    · subst hceq
      show augment n A B (n - 1) n = _
      unfold augment
      rw [if_pos rfl, if_neg (by omega)]
      exact splineSystem_BLast data.points
    · show augment n A B (n - 1) c = _
      unfold augment
      rw [if_neg (by omega)]
      exact splineSystem_rowLast data.points hn c
  set aug' := gaussForward n aug with haug'
  have hrow0 : ∀ c ≤ n, aug' 0 c = if c = 0 then 1 else 0 := fun c hc => by
    rw [haug', gaussForward_row0]; exact hA0 c hc
  have hrowL : ∀ c ≤ n, aug' (n - 1) c = if c = n - 1 then 1 else 0 := fun c hc => by
    rw [haug']
    exact gaussForward_lastRow n aug hALast c hc
  have htol1 : tol < |(1 : ℚ)| := by norm_num [tol]
  have hsolL : backSubst n aug' (n - 1) = 0 := by
    have hchar := backLoop_lt n aug' n (le_refl n) (fun _ => 0) (n - 1) (by omega)
    have hIooL : Finset.Ioo (n - 1) n = ∅ := by
      ext j
      simp only [Finset.mem_Ioo, Finset.not_mem_empty, iff_false]
      omega
    have h11 : aug' (n - 1) (n - 1) = 1 := by
      rw [hrowL (n - 1) (by omega), if_pos rfl]
    have h1n : aug' (n - 1) n = 0 := by
      rw [hrowL n (le_refl n), if_neg (by omega)]
    unfold backSubst
    rw [hchar, hIooL, Finset.sum_empty, h11, h1n, if_pos htol1]
    norm_num
  have hsol0 : backSubst n aug' 0 = 0 := by
    have hchar := backLoop_lt n aug' n (le_refl n) (fun _ => 0) 0 (by omega)
    have h00 : aug' 0 0 = 1 := by rw [hrow0 0 (by omega), if_pos rfl]
    have h0n : aug' 0 n = 0 := by rw [hrow0 n (le_refl n), if_neg (by omega)]
    have hsum : ∑ j ∈ Finset.Ioo 0 n, aug' 0 j * backLoop n aug' n (fun _ => 0) j = 0 := by
      refine Finset.sum_eq_zero fun j hj => ?_
      have hj' := Finset.mem_Ioo.mp hj
      rw [hrow0 j (by omega), if_neg (by omega), zero_mul]
    unfold backSubst
    rw [hchar, hsum, h00, h0n, if_pos htol1]
    norm_num
  have hsd : (newCubicSpline data).secondDerivatives
      = (List.range n).map (backSubst n aug') := rfl
  constructor
  · rw [hsd, List.getElem?_map, List.getElem?_range (show 0 < n by omega)]
    simp [hsol0]
  · rw [hsd, List.getElem?_map, List.getElem?_range (show n - 1 < n by omega)]
    simp [hsolL]

/-- Witness for C2 on the two-point data set. -/
theorem spline_natural_boundary_witness :
    (∀ i < twoPointData.points.length - 1,
      (twoPointData.points.getD i default).x < (twoPointData.points.getD (i + 1) default).x) ∧
    2 ≤ twoPointData.points.length ∧
    (newCubicSpline twoPointData).secondDerivatives[0]? = some 0 ∧
    (newCubicSpline twoPointData).secondDerivatives[twoPointData.points.length - 1]? = some 0 :=
  ⟨by decide, by decide, spline_natural_boundary twoPointData (by decide) (by decide)⟩

end Lab01

namespace Lab01

/-! ### The Chebyshev grid -/

/-- C7: the `i`-th point of `createChebyshevGrid(a, b, n, f)` has abscissa
`(a+b)/2 + (b-a)/2·cos(π(2i+1)/(2(n+1)))`; every Chebyshev factor satisfies
`|t_i| ≤ 1`; and the factor at index `n - i` is the negation of the factor at
`i`, so on `[-1, 1]` the node set is symmetric about `0` (in particular when
`n + 1` is even). -/
theorem chebyshev_grid_nodes (a b : ℝ) (f : ℝ → ℝ) (n i : ℕ) (hn : 1 ≤ n) (hi : i ≤ n) :
    (createChebyshevGrid a b n f)[i]? = some
      { x := (a + b) / 2 + (b - a) / 2 * chebT n i,
        y := f ((a + b) / 2 + (b - a) / 2 * chebT n i) } ∧
    |chebT n i| ≤ 1 ∧
    (2 ∣ n + 1 → chebT n (n - i) = -chebT n i) := by
  refine ⟨?_, ?_, ?_⟩
  · unfold createChebyshevGrid
    rw [List.getElem?_map, List.getElem?_range (by omega)]
    rfl
  · exact Real.abs_cos_le_one _
  · intro _
    unfold chebT
    rw [Nat.cast_sub hi]
    have hang : Real.pi * (2 * ((n : ℝ) - (i : ℝ)) + 1) / (2 * ((n : ℝ) + 1))
        = Real.pi - Real.pi * (2 * (i : ℝ) + 1) / (2 * ((n : ℝ) + 1)) := by
      have hden : (2 * ((n : ℝ) + 1)) ≠ 0 := by positivity
      field_simp
      ring
    rw [hang, Real.cos_pi_sub]

/-- Witness for C7 at `a = -1`, `b = 1`, `n = 1`, `i = 0`. -/
theorem chebyshev_grid_nodes_witness :
    ((1 : ℕ) ≤ 1 ∧ (0 : ℕ) ≤ 1) ∧
    ((createChebyshevGrid (-1) 1 1 (fun t : ℝ => t))[0]? = some
        { x := ((-1) + 1) / 2 + (1 - (-1)) / 2 * chebT 1 0,
          y := (fun t : ℝ => t) (((-1) + 1) / 2 + (1 - (-1)) / 2 * chebT 1 0) } ∧
      |chebT 1 0| ≤ 1 ∧
      (2 ∣ 1 + 1 → chebT 1 (1 - 0) = -chebT 1 0)) :=
  ⟨⟨le_refl 1, by norm_num⟩,
    chebyshev_grid_nodes (-1) 1 (fun t : ℝ => t) 1 0 (le_refl 1) (by norm_num)⟩

/-! ### Frame property of the heap-level solver -/

/-- `setH` preserves the allocation counter. -/
theorem setH_next (hp : Heap) (ref i j : ℕ) (v : ℚ) : (setH hp ref i j v).next = hp.next :=
  rfl

/-- `setH` leaves every other reference untouched. -/
theorem setH_mem_ne (hp : Heap) (ref i j : ℕ) (v : ℚ) (r : ℕ) (h : r ≠ ref) :
    (setH hp ref i j v).mem r = hp.mem r := by
  simp [setH, h]

/-- A fold whose steps preserve reference `r` and the counter preserves both. -/
theorem foldl_heap_preserve {α : Type} (g : Heap → α → Heap) (r : ℕ)
    (hg : ∀ hh a, (g hh a).mem r = hh.mem r) (hgn : ∀ hh a, (g hh a).next = hh.next) :
    ∀ (l : List α) (hh : Heap),
      ((l.foldl g hh).mem r = hh.mem r) ∧ ((l.foldl g hh).next = hh.next) := by
  intro l
  induction l with
  | nil => intro hh; exact ⟨rfl, rfl⟩
  | cons a t ih =>
    intro hh
    rw [List.foldl_cons]
    exact ⟨(ih _).1.trans (hg hh a), (ih _).2.trans (hgn hh a)⟩

/-- A fold whose steps preserve the counter preserves the counter. -/
theorem foldl_heap_next {α : Type} (g : Heap → α → Heap)
    (hgn : ∀ hh a, (g hh a).next = hh.next) :
    ∀ (l : List α) (hh : Heap), (l.foldl g hh).next = hh.next := by
  intro l
  induction l with
  | nil => intro hh; rfl
  | cons a t ih =>
    intro hh
    rw [List.foldl_cons, ih, hgn hh a]

/-- A copy row writes only to the augmented matrix. -/
theorem copyRow_mem (aRef bRef aug n r : ℕ) (hr : r ≠ aug) (hh : Heap) (i : ℕ) :
    (copyRow aRef bRef aug n hh i).mem r = hh.mem r := by
  unfold copyRow
  rw [setH_mem_ne _ _ _ _ _ _ hr]
  exact (foldl_heap_preserve _ r (fun hh2 j => setH_mem_ne _ _ _ _ _ _ hr)
    (fun hh2 j => rfl) _ hh).1

/-- A copy row preserves the allocation counter. -/
theorem copyRow_next (aRef bRef aug n : ℕ) (hh : Heap) (i : ℕ) :
    (copyRow aRef bRef aug n hh i).next = hh.next := by
  unfold copyRow
  rw [setH_next]
  exact foldl_heap_next (fun hh2 j => setH hh2 aug i j (getH hh2 aRef i j))
    (fun hh2 j => rfl) (List.range n) hh

/-- A heap elimination of one row writes only to the augmented matrix. -/
theorem elimRowH_mem (aug n i r : ℕ) (hr : r ≠ aug) (hh : Heap) (k : ℕ) :
    (elimRowH aug n i hh k).mem r = hh.mem r := by
  unfold elimRowH
  by_cases ht : |getH hh aug i i| < tol
  · rw [if_pos ht]
  · rw [if_neg ht]
    exact (foldl_heap_preserve _ r (fun hh3 j => setH_mem_ne _ _ _ _ _ _ hr)
      (fun hh3 j => rfl) _ hh).1

/-- A heap elimination of one row preserves the allocation counter. -/
theorem elimRowH_next (aug n i : ℕ) (hh : Heap) (k : ℕ) :
    (elimRowH aug n i hh k).next = hh.next := by
  unfold elimRowH
  by_cases ht : |getH hh aug i i| < tol
  · rw [if_pos ht]
  · rw [if_neg ht]
    exact foldl_heap_next (fun hh3 j => setH hh3 aug k j
        (getH hh3 aug k j - (getH hh aug k i / getH hh aug i i) * getH hh3 aug i j))
      (fun hh3 j => rfl) (List.range' i (n + 1 - i)) hh

/-- A heap elimination pass writes only to the augmented matrix. -/
theorem forwardPivotH_mem (aug n i r : ℕ) (hr : r ≠ aug) (hh : Heap) :
    (forwardPivotH aug n hh i).mem r = hh.mem r := by
  unfold forwardPivotH
  exact (foldl_heap_preserve _ r (fun hh2 k => elimRowH_mem aug n i r hr hh2 k)
    (fun hh2 k => elimRowH_next aug n i hh2 k) _ hh).1

/-- A heap elimination pass preserves the allocation counter. -/
theorem forwardPivotH_next (aug n i : ℕ) (hh : Heap) :
    (forwardPivotH aug n hh i).next = hh.next := by
  unfold forwardPivotH
  exact foldl_heap_next _ (fun hh2 k => elimRowH_next aug n i hh2 k) _ hh

/-- C9: `SolveLinearSystem` never mutates its arguments.  It copies `A` and
`b` into a freshly allocated augmented matrix and only ever writes through
that fresh reference, so after the call every previously allocated reference
— in particular the caller's `A` and `b` — holds exactly its original
entries. -/
theorem solve_frame (hp : Heap) (aRef bRef n : ℕ) (hA : aRef < hp.next)
    (hB : bRef < hp.next) :
    (solveLinearSystemH hp aRef bRef n).1.mem aRef = hp.mem aRef ∧
    (solveLinearSystemH hp aRef bRef n).1.mem bRef = hp.mem bRef := by
  have key : ∀ r, r ≠ hp.next → (solveLinearSystemH hp aRef bRef n).1.mem r = hp.mem r := by
    intro r hr
    show ((List.range n).foldl (forwardPivotH (newMatrixH hp).2 n)
      ((List.range n).foldl (copyRow aRef bRef (newMatrixH hp).2 n) (newMatrixH hp).1)).mem r
      = hp.mem r
    have haug : (newMatrixH hp).2 = hp.next := rfl
    rw [haug]
    rw [(foldl_heap_preserve (forwardPivotH hp.next n) r
      (fun hh i => forwardPivotH_mem hp.next n i r hr hh)
      (fun hh i => forwardPivotH_next hp.next n i hh) _ _).1]
    rw [(foldl_heap_preserve (copyRow aRef bRef hp.next n) r
      (fun hh i => copyRow_mem aRef bRef hp.next n r hr hh i)
      (fun hh i => copyRow_next aRef bRef hp.next n hh i) _ _).1]
    show (if r = hp.next then (fun _ _ => (0 : ℚ)) else hp.mem r) = hp.mem r
    rw [if_neg hr]
  exact ⟨key aRef (by omega), key bRef (by omega)⟩

/-- Witness for C9 on the concrete two-reference heap with `n = 1`. -/
theorem solve_frame_witness :
    ((0 : ℕ) < twoRefHeap.next ∧ (1 : ℕ) < twoRefHeap.next) ∧
    ((solveLinearSystemH twoRefHeap 0 1 1).1.mem 0 = twoRefHeap.mem 0 ∧
      (solveLinearSystemH twoRefHeap 0 1 1).1.mem 1 = twoRefHeap.mem 1) :=
  ⟨⟨by decide, by decide⟩, solve_frame twoRefHeap 0 1 1 (by decide) (by decide)⟩

end Lab01
